import Mathlib

/-!
Shallow embedding of the belt-stage aggregation core of
`src/static/js/dashboard.js` (class `AirportDashboard`), together with the
alert-scope filter.  JavaScript numbers that may be `NaN`
(or `undefined`, which compares like `NaN`) are modelled by `JSNum`;
JavaScript plain objects used as string-keyed count maps are modelled by
association lists in insertion order, mirroring the insertion-order
iteration of `Object.entries` on such objects.
-/

/-- A JavaScript numeric value as used in comparisons: either a real number
(modelled by `ℚ`) or `NaN` (also covering `undefined`/non-numeric operands,
which behave like `NaN` in `<`/`>=` comparisons). -/
inductive JSNum where
  | nan : JSNum
  | num : ℚ → JSNum
deriving DecidableEq, Repr

/-- JavaScript `a >= b`: false whenever either side is `NaN`. -/
def JSNum.ge : JSNum → JSNum → Bool
  | JSNum.num a, JSNum.num b => decide (b ≤ a)
  | _, _ => false

/-- JavaScript `a < b`: false whenever either side is `NaN`. -/
def JSNum.lt : JSNum → JSNum → Bool
  | JSNum.num a, JSNum.num b => decide (a < b)
  | _, _ => false

/-- One entry of `this.beltStages`: bounds plus display metadata carried
opaquely (`label`, `description`, `icon` are never read by the core). -/
structure Stage where
  id : String
  label : String
  description : String
  icon : String
  start : ℚ
  stop : ℚ
deriving DecidableEq, Repr

/-- A bag from `belt.bags_on_belt`; only `position` is read by the core. -/
structure Bag where
  bag_id : String
  position : JSNum
deriving DecidableEq, Repr

/-- A belt snapshot; `bags_on_belt = none` models a missing field or a value
that is not an array (`!Array.isArray(belt.bags_on_belt)`). -/
structure Belt where
  bags_on_belt : Option (List Bag)
deriving DecidableEq, Repr

/-- An AI alert; `scope = none` models an absent `scope` field or one that is
not an array. -/
structure Alert where
  id : String
  scope : Option (List String)
deriving DecidableEq, Repr

/-- The canonical 4-stage table assigned to `this.beltStages` in the
`AirportDashboard` constructor (dashboard.js lines 12-45).  The JS field
`end` is rendered here as `stop`. -/
def beltStages : List Stage :=
  [ { id := "checking", label := "Check-In & Tagging",
      description := "Bags dropped and tagged",
      icon := "fas fa-clipboard-check", start := 0, stop := 25 },
    { id := "sorting", label := "Automated Sorting",
      description := "Intelligent diverters align bags",
      icon := "fas fa-diagram-project", start := 25, stop := 50 },
    { id := "security", label := "Security Screening",
      description := "Explosive trace & X-ray scanning",
      icon := "fas fa-shield-halved", start := 50, stop := 75 },
    { id := "boarding", label := "Gate Boarding",
      description := "Loaded on dollies and trolleys",
      icon := "fas fa-plane-departure", start := 75, stop := 100 } ]

/-- The insertion-ordered keys of an object modelled as an association list. -/
def keys (o : List (String × Nat)) : List String := o.map Prod.fst

/-- JavaScript property read `o[k]` on a count object: the value at the first
entry with key `k`, or `none` when the key is absent (`undefined`). -/
def lookupCount (o : List (String × Nat)) (k : String) : Option Nat :=
  (o.find? (fun p => p.1 == k)).map Prod.snd

/-- JavaScript `o[k] += d` on a count object, when `o[k]` is a number: every
entry whose key is `k` has its value bumped in place (with distinct keys, the
single such entry); when the key is absent nothing changes (the callers guard
the absent case, under which JS would store `NaN`). -/
def bumpCount (o : List (String × Nat)) (k : String) (d : Nat) :
    List (String × Nat) :=
  o.map (fun p => if p.1 == k then (p.1, p.2 + d) else p)

/-- The JavaScript assignment `acc[stage.id] = 0` on a count object: assigning
to an existing key rewrites it in place, otherwise the key is appended in
insertion order. -/
def setZero (acc : List (String × Nat)) (id : String) : List (String × Nat) :=
  if acc.any (fun p => p.1 == id) then
    acc.map (fun p => if p.1 == id then (p.1, 0) else p)
  else acc ++ [(id, 0)]

/-- The zero-initialization `stages.reduce((acc, stage) => { acc[stage.id] = 0;
return acc; }, {})` used by both `calculateStageCounts` (lines 124-127) and
`aggregateStageCounts` (lines 754-757). -/
def zeroCounts (stages : List Stage) : List (String × Nat) :=
  stages.foldl (fun acc stage => setZero acc stage.id) []

/-- `getStageForPosition` (dashboard.js lines 143-149): the first stage with
`position >= start && position < end`, else the last stage, else `null` when
the stage table is empty.  The `this.getBeltStages()` receiver state is passed
explicitly as `stages`. -/
def getStageForPosition (stages : List Stage) (position : JSNum) :
    Option String :=
  if stages.isEmpty then none
  else
    match stages.find?
        (fun stage => position.ge (JSNum.num stage.start)
          && position.lt (JSNum.num stage.stop)) with
    | some stage => some stage.id
    | none => stages.getLast?.map Stage.id

/-- The `forEach` body of `calculateStageCounts` (dashboard.js lines 133-138):
classify one bag with `getStageForPosition` and increment its stage's counter
when the returned id is truthy (`stageId &&`, i.e. non-null and non-empty) and
`typeof counts[stageId] === 'number'` (the key is present). -/
def countBag (stages : List Stage) (acc : List (String × Nat)) (bag : Bag) :
    List (String × Nat) :=
  match getStageForPosition stages bag.position with
  | none => acc
  | some stageId =>
      if stageId != "" && acc.any (fun p => p.1 == stageId) then
        bumpCount acc stageId 1
      else acc

/-- `calculateStageCounts` (dashboard.js lines 122-141): zero-initialized
counts; a `none` belt models a null/absent belt (`!belt`); otherwise every bag
is folded through `countBag`. -/
def calculateStageCounts (stages : List Stage) (belt : Option Belt) :
    List (String × Nat) :=
  let counts := zeroCounts stages
  match belt with
  | none => counts
  | some b =>
      match b.bags_on_belt with
      | none => counts
      | some bags => bags.foldl (countBag stages) counts

/-- `getStageFlowState` (dashboard.js lines 151-156): ordered decision table,
first match wins. -/
def getStageFlowState (loadPercent : ℤ) (count : Nat) : String :=
  if count = 0 then "Idle"
  else if loadPercent ≥ 60 then "Congested"
  else if loadPercent ≥ 30 then "Flowing"
  else "Clearing"

/-- `getDominantStage` (dashboard.js lines 158-173): running maximum over
`Object.entries(counts)` in insertion order, starting from the first entry,
updated only on a strict `>`; `null` on an empty mapping (also covering a
null `counts` argument, whose `Object.entries(counts || {})` is empty). -/
def getDominantStage (counts : List (String × Nat)) : Option String :=
  match counts with
  | [] => none
  | first :: rest =>
      some ((List.foldl (fun acc p => if p.2 > acc.2 then p else acc)
        first (first :: rest)).1)

/-- The per-stage body of `aggregateStageCounts` (dashboard.js line 766):
`totals[stage.id] += counts[stage.id] || 0`.  The totals key always exists in
every reachable call, being zero-initialized from the same stage list, so the
JS case where a missing key would store `NaN` is unreachable. -/
def addStageCount (counts totals : List (String × Nat)) (stage : Stage) :
    List (String × Nat) :=
  bumpCount totals stage.id ((lookupCount counts stage.id).getD 0)

/-- The per-belt `forEach` body of `aggregateStageCounts` (lines 763-768):
compute the belt's `calculateStageCounts` and add it stage by stage into the
running totals. -/
def addBeltCounts (stages : List Stage) (totals : List (String × Nat))
    (belt : Option Belt) : List (String × Nat) :=
  let counts := calculateStageCounts stages belt
  stages.foldl (addStageCount counts) totals

/-- `aggregateStageCounts` (dashboard.js lines 752-771): zero-initialized
totals; a non-array belt collection (`none`) yields the zero mapping;
otherwise each belt is folded through `addBeltCounts`. -/
def aggregateStageCounts (stages : List Stage)
    (conveyorBelts : Option (List (Option Belt))) : List (String × Nat) :=
  let totals := zeroCounts stages
  match conveyorBelts with
  | none => totals
  | some belts => belts.foldl (addBeltCounts stages) totals

/-- `filterAlertsByScope` (dashboard.js lines 476-487): `none` models a
non-array alert collection; an alert is kept when its scope is absent, not an
array, or empty, or when some scope element is in the viewer's allowed set
(`this.alertScopes`) or equals the string `all`. -/
def filterAlertsByScope (alertScopes : List String)
    (alerts : Option (List Alert)) : List Alert :=
  match alerts with
  | none => []
  | some alertList =>
      if alertList.isEmpty then []
      else
        alertList.filter
          (fun alert =>
            match alert.scope with
            | none => true
            | some scope =>
                if scope.isEmpty then true
                else scope.any
                  (fun s => alertScopes.contains s || s == "all"))

/-- Sum of the values of a count object. -/
def sumValues (o : List (String × Nat)) : Nat := (o.map Prod.snd).sum



/-! ### Helper lemmas: the count-object model -/

theorem any_key_iff (o : List (String × Nat)) (k : String) :
    (o.any (fun p => p.1 == k)) = true ↔ k ∈ keys o := by
  simp [List.any_eq_true, keys, List.mem_map, beq_iff_eq]

theorem keys_bumpCount (o : List (String × Nat)) (k : String) (d : Nat) :
    keys (bumpCount o k d) = keys o := by
  unfold keys bumpCount
  rw [List.map_map]
  apply List.map_congr_left
  intro p _
  by_cases h : p.1 = k <;> simp [h]

theorem bumpCount_zero (o : List (String × Nat)) (k : String) :
    bumpCount o k 0 = o := by
  unfold bumpCount
  conv_rhs => rw [← List.map_id o]
  apply List.map_congr_left
  intro p _
  cases p with
  | mk a b => by_cases h : a = k <;> simp [h]

theorem bumpCount_not_mem (o : List (String × Nat)) (k : String) (d : Nat)
    (h : k ∉ keys o) : bumpCount o k d = o := by
  unfold bumpCount
  conv_rhs => rw [← List.map_id o]
  apply List.map_congr_left
  intro p hp
  have hne : p.1 ≠ k := by
    intro he
    exact h (he ▸ List.mem_map_of_mem Prod.fst hp)
  simp [hne]

theorem lookupCount_eq_none_iff (o : List (String × Nat)) (k : String) :
    lookupCount o k = none ↔ k ∉ keys o := by
  unfold lookupCount keys
  rw [Option.map_eq_none', List.find?_eq_none]
  constructor
  · intro h hmem
    obtain ⟨p, hp, hpk⟩ := List.mem_map.mp hmem
    exact h p hp (by simp [beq_iff_eq, hpk])
  · intro h p hp hpk
    exact h (List.mem_map.mpr ⟨p, hp, by simpa [beq_iff_eq] using hpk⟩)

theorem lookupCount_some_mem (o : List (String × Nat)) (k : String) (n : Nat)
    (h : lookupCount o k = some n) : (k, n) ∈ o := by
  unfold lookupCount at h
  cases hf : o.find? (fun p => p.1 == k) with
  | none => rw [hf] at h; simp at h
  | some p =>
      rw [hf] at h
      have hp : p ∈ o := List.mem_of_find?_eq_some hf
      have hk := List.find?_some hf
      have hk1 : p.1 = k := of_decide_eq_true hk
      rw [Option.map_some'] at h
      have hn : p.2 = n := Option.some.inj h
      have hpe : p = (k, n) := by
        cases p with
        | mk a b => simp_all
      exact hpe ▸ hp

theorem lookupCount_isSome_of_mem (o : List (String × Nat)) (k : String)
    (h : k ∈ keys o) : ∃ n, lookupCount o k = some n := by
  cases hl : lookupCount o k with
  | none => exact absurd ((lookupCount_eq_none_iff o k).mp hl) (by simp [h])
  | some n => exact ⟨n, rfl⟩

theorem lookupCount_bumpCount (o : List (String × Nat)) (k j : String)
    (d : Nat) :
    lookupCount (bumpCount o k d) j =
      if j = k then (lookupCount o j).map (· + d) else lookupCount o j := by
  induction o with
  | nil =>
      simp only [bumpCount, List.map_nil, lookupCount, List.find?_nil,
        Option.map_none]
      split <;> rfl
  | cons p t ih =>
      have hhead : bumpCount (p :: t) k d
          = (if p.1 == k then (p.1, p.2 + d) else p) :: bumpCount t k d := by
        simp [bumpCount]
      rw [hhead]
      by_cases hpj : p.1 = j
      · by_cases hpk : p.1 = k
        · have hjk : j = k := hpj ▸ hpk
          have hb : (p.1 == k) = true := by simp [beq_iff_eq, hpk]
          rw [if_pos hb]
          unfold lookupCount
          rw [List.find?_cons_of_pos _ (by simp [beq_iff_eq, hpj]),
            List.find?_cons_of_pos _ (by simp [beq_iff_eq, hpj])]
          simp [hjk]
        · have hjk : j ≠ k := fun he => hpk (hpj.trans he)
          have hb : (p.1 == k) = false := by simp [beq_iff_eq, hpk]
          rw [if_neg (by simp [hb])]
          unfold lookupCount
          rw [List.find?_cons_of_pos _ (by simp [beq_iff_eq, hpj]),
            List.find?_cons_of_pos _ (by simp [beq_iff_eq, hpj])]
          simp [hjk]
      · have hcons : ∀ q : String × Nat, q.1 = p.1 →
            lookupCount (q :: bumpCount t k d) j = lookupCount (bumpCount t k d) j := by
          intro q hq
          unfold lookupCount
          rw [List.find?_cons_of_neg _ (by simp [beq_iff_eq, hq, hpj])]
        by_cases hpk : p.1 = k
        · have hb : (p.1 == k) = true := by simp [beq_iff_eq, hpk]
          rw [if_pos hb, hcons (p.1, p.2 + d) rfl, ih]
          unfold lookupCount
          rw [List.find?_cons_of_neg _ (by simp [beq_iff_eq, hpj])]
        · have hb : (p.1 == k) = false := by simp [beq_iff_eq, hpk]
          rw [if_neg (by simp [hb]), hcons p rfl, ih]
          unfold lookupCount
          rw [List.find?_cons_of_neg _ (by simp [beq_iff_eq, hpj])]

/-! ### Helper lemmas: zero-initialization -/

theorem keys_setZero_of_mem (acc : List (String × Nat)) (id : String)
    (h : id ∈ keys acc) : keys (setZero acc id) = keys acc := by
  unfold setZero
  rw [if_pos ((any_key_iff acc id).mpr h)]
  unfold keys
  rw [List.map_map]
  apply List.map_congr_left
  intro p _
  by_cases hp : p.1 = id <;> simp [hp]

theorem keys_setZero_of_not_mem (acc : List (String × Nat)) (id : String)
    (h : id ∉ keys acc) : keys (setZero acc id) = keys acc ++ [id] := by
  unfold setZero
  rw [if_neg (fun hc => h ((any_key_iff acc id).mp hc))]
  simp [keys]

theorem keys_setZero_mem (acc : List (String × Nat)) (id k : String) :
    k ∈ keys (setZero acc id) ↔ k ∈ keys acc ∨ k = id := by
  by_cases h : id ∈ keys acc
  · rw [keys_setZero_of_mem acc id h]
    constructor
    · exact Or.inl
    · rintro (hk | rfl)
      · exact hk
      · exact h
  · rw [keys_setZero_of_not_mem acc id h]
    simp

theorem keys_setZero_nodup (acc : List (String × Nat)) (id : String)
    (h : (keys acc).Nodup) : (keys (setZero acc id)).Nodup := by
  by_cases hm : id ∈ keys acc
  · rw [keys_setZero_of_mem acc id hm]; exact h
  · rw [keys_setZero_of_not_mem acc id hm]
    rw [List.nodup_append]
    refine ⟨h, List.nodup_singleton id, ?_⟩
    intro a ha ha2
    simp at ha2
    exact hm (ha2 ▸ ha)

theorem setZero_values (acc : List (String × Nat)) (id : String)
    (h : ∀ p ∈ acc, p.2 = 0) : ∀ p ∈ setZero acc id, p.2 = 0 := by
  intro p hp
  unfold setZero at hp
  split at hp
  · obtain ⟨q, hq, hqe⟩ := List.mem_map.mp hp
    by_cases hq1 : q.1 = id
    · simp [hq1] at hqe
      rw [← hqe]
    · simp [hq1] at hqe
      exact hqe ▸ h q hq
  · rcases List.mem_append.mp hp with hm | hm
    · exact h p hm
    · simp at hm
      simp [hm]

theorem setZero_head (k0 : String) (t : List (String × Nat)) (id : String) :
    ∃ t2, setZero ((k0, 0) :: t) id = (k0, 0) :: t2 := by
  unfold setZero
  split
  · refine ⟨(t.map (fun p => if p.1 = id then (p.1, 0) else p)), ?_⟩
    simp only [List.map_cons, List.cons.injEq]
    constructor
    · by_cases hk : k0 = id <;> simp [hk]
    · apply List.map_congr_left
      intro p _
      by_cases hp : p.1 = id <;> simp [hp]
  · exact ⟨t ++ [(id, 0)], by simp⟩

theorem zeroCounts_go_mem (ss : List Stage) :
    ∀ (acc : List (String × Nat)) (k : String),
      k ∈ keys (ss.foldl (fun a s => setZero a s.id) acc)
        ↔ k ∈ keys acc ∨ k ∈ ss.map Stage.id := by
  induction ss with
  | nil => intro acc k; simp
  | cons s rest ih =>
      intro acc k
      simp only [List.foldl_cons, List.map_cons, List.mem_cons]
      rw [ih (setZero acc s.id) k, keys_setZero_mem]
      tauto

theorem zeroCounts_go_nodup (ss : List Stage) :
    ∀ acc : List (String × Nat), (keys acc).Nodup →
      (keys (ss.foldl (fun a s => setZero a s.id) acc)).Nodup := by
  induction ss with
  | nil => intro acc h; simpa using h
  | cons s rest ih =>
      intro acc h
      simp only [List.foldl_cons]
      exact ih (setZero acc s.id) (keys_setZero_nodup acc s.id h)

theorem zeroCounts_go_zero (ss : List Stage) :
    ∀ acc : List (String × Nat), (∀ p ∈ acc, p.2 = 0) →
      ∀ p ∈ ss.foldl (fun a s => setZero a s.id) acc, p.2 = 0 := by
  induction ss with
  | nil => intro acc h; simpa using h
  | cons s rest ih =>
      intro acc h
      simp only [List.foldl_cons]
      exact ih (setZero acc s.id) (setZero_values acc s.id h)

theorem zeroCounts_go_head (ss : List Stage) :
    ∀ (k0 : String) (t : List (String × Nat)),
      ∃ t2, ss.foldl (fun a s => setZero a s.id) ((k0, 0) :: t)
        = (k0, 0) :: t2 := by
  induction ss with
  | nil => intro k0 t; exact ⟨t, rfl⟩
  | cons s rest ih =>
      intro k0 t
      simp only [List.foldl_cons]
      obtain ⟨t1, ht1⟩ := setZero_head k0 t s.id
      rw [ht1]
      exact ih k0 t1

theorem zeroCounts_go_keys (ss : List Stage) :
    ∀ acc : List (String × Nat), (keys acc ++ ss.map Stage.id).Nodup →
      keys (ss.foldl (fun a s => setZero a s.id) acc)
        = keys acc ++ ss.map Stage.id := by
  induction ss with
  | nil => intro acc _; simp
  | cons s rest ih =>
      intro acc h
      simp only [List.map_cons] at h
      have hrearr : keys acc ++ s.id :: rest.map Stage.id
          = (keys acc ++ [s.id]) ++ rest.map Stage.id := by simp
      rw [hrearr] at h
      have hid : s.id ∉ keys acc := by
        rw [List.nodup_append] at h
        have := h.1
        rw [List.nodup_append] at this
        intro hc
        exact this.2.2 hc (List.mem_singleton_self s.id)
      simp only [List.foldl_cons]
      rw [ih (setZero acc s.id) (by rwa [keys_setZero_of_not_mem acc s.id hid]),
        keys_setZero_of_not_mem acc s.id hid]
      simp

theorem keys_zeroCounts_mem (stages : List Stage) (k : String) :
    k ∈ keys (zeroCounts stages) ↔ k ∈ stages.map Stage.id := by
  unfold zeroCounts
  rw [zeroCounts_go_mem]
  simp [keys]

theorem keys_zeroCounts_nodup (stages : List Stage) :
    (keys (zeroCounts stages)).Nodup := by
  unfold zeroCounts
  exact zeroCounts_go_nodup stages [] (by simp [keys])

theorem zeroCounts_values (stages : List Stage) :
    ∀ p ∈ zeroCounts stages, p.2 = 0 := by
  unfold zeroCounts
  exact zeroCounts_go_zero stages [] (by simp)

theorem keys_zeroCounts_of_nodup (stages : List Stage)
    (h : (stages.map Stage.id).Nodup) :
    keys (zeroCounts stages) = stages.map Stage.id := by
  unfold zeroCounts
  rw [zeroCounts_go_keys stages [] (by simpa [keys] using h)]
  simp [keys]

theorem zeroCounts_head (s : Stage) (rest : List Stage) :
    ∃ t2, zeroCounts (s :: rest) = (s.id, 0) :: t2 := by
  unfold zeroCounts
  simp only [List.foldl_cons]
  have hz : setZero [] s.id = [(s.id, 0)] := by simp [setZero]
  rw [hz]
  exact zeroCounts_go_head rest s.id []

theorem lookupCount_zeroCounts (stages : List Stage) (k : String) :
    lookupCount (zeroCounts stages) k = some 0
      ∨ lookupCount (zeroCounts stages) k = none := by
  cases hl : lookupCount (zeroCounts stages) k with
  | none => exact Or.inr rfl
  | some n =>
      left
      have := zeroCounts_values stages (k, n)
        (lookupCount_some_mem (zeroCounts stages) k n hl)
      simp at this
      rw [this]

/-! ### Helper lemmas: sums, classification, running maximum -/

theorem keys_cons (p : String × Nat) (t : List (String × Nat)) :
    keys (p :: t) = p.1 :: keys t := rfl

theorem sumValues_cons (p : String × Nat) (t : List (String × Nat)) :
    sumValues (p :: t) = p.2 + sumValues t := by
  simp [sumValues]

theorem sumValues_bumpCount (o : List (String × Nat)) (k : String) (d : Nat)
    (hnd : (keys o).Nodup) (hk : k ∈ keys o) :
    sumValues (bumpCount o k d) = sumValues o + d := by
  induction o with
  | nil => simp [keys] at hk
  | cons p t ih =>
      have hht : bumpCount (p :: t) k d
          = (if p.1 == k then (p.1, p.2 + d) else p) :: bumpCount t k d := by
        simp [bumpCount]
      rw [hht]
      rw [keys_cons, List.nodup_cons] at hnd
      by_cases hpk : p.1 = k
      · have ht : bumpCount t k d = t :=
          bumpCount_not_mem t k d (hpk ▸ hnd.1)
        rw [if_pos (by simp [hpk]), ht, sumValues_cons, sumValues_cons]
        omega
      · have hk2 : k ∈ keys t := by
          rw [keys_cons, List.mem_cons] at hk
          rcases hk with h | h
          · exact absurd h.symm hpk
          · exact h
        rw [if_neg (by simp [hpk]), sumValues_cons, sumValues_cons,
          ih hnd.2 hk2]
        omega

theorem keys_countBag (stages : List Stage) (acc : List (String × Nat))
    (bag : Bag) : keys (countBag stages acc bag) = keys acc := by
  unfold countBag
  cases hpos : getStageForPosition stages bag.position with
  | none => rfl
  | some id =>
      show keys (if (id != "" && acc.any fun p => p.1 == id) = true then
        bumpCount acc id 1 else acc) = keys acc
      by_cases hc : (id != "" && acc.any fun p => p.1 == id) = true
      · rw [if_pos hc]
        exact keys_bumpCount acc id 1
      · rw [if_neg hc]

theorem countBag_eq_bump (stages : List Stage) (acc : List (String × Nat))
    (bag : Bag) (id : String)
    (h : getStageForPosition stages bag.position = some id)
    (hne : id ≠ "") (hmem : id ∈ keys acc) :
    countBag stages acc bag = bumpCount acc id 1 := by
  unfold countBag
  rw [h]
  show (if (id != "" && acc.any fun p => p.1 == id) = true then
    bumpCount acc id 1 else acc) = bumpCount acc id 1
  have hc : (id != "" && acc.any fun p => p.1 == id) = true := by
    rw [Bool.and_eq_true]
    exact ⟨bne_iff_ne.mpr hne, (any_key_iff acc id).mpr hmem⟩
  rw [if_pos hc]

theorem sumValues_countBag_le (stages : List Stage)
    (acc : List (String × Nat)) (bag : Bag) (hnd : (keys acc).Nodup) :
    sumValues (countBag stages acc bag) ≤ sumValues acc + 1 := by
  unfold countBag
  cases hpos : getStageForPosition stages bag.position with
  | none => exact Nat.le_add_right _ 1
  | some id =>
      show sumValues (if (id != "" && acc.any fun p => p.1 == id) = true then
        bumpCount acc id 1 else acc) ≤ sumValues acc + 1
      by_cases hc : (id != "" && acc.any fun p => p.1 == id) = true
      · rw [if_pos hc]
        rw [Bool.and_eq_true] at hc
        rw [sumValues_bumpCount acc id 1 hnd ((any_key_iff acc id).mp hc.2)]
      · rw [if_neg hc]
        exact Nat.le_add_right _ 1

theorem getStageForPosition_eq_none_iff (stages : List Stage) (pos : JSNum) :
    getStageForPosition stages pos = none ↔ stages = [] := by
  unfold getStageForPosition
  by_cases h : stages = []
  · subst h; simp
  · rw [if_neg (by simpa [List.isEmpty_iff] using h)]
    cases hf : stages.find?
        (fun stage => pos.ge (JSNum.num stage.start)
          && pos.lt (JSNum.num stage.stop)) with
    | some s => simp [h]
    | none =>
        rw [List.getLast?_eq_getLast_of_ne_nil h]
        simp [h]

theorem getStageForPosition_mem (stages : List Stage) (pos : JSNum)
    (id : String) (h : getStageForPosition stages pos = some id) :
    id ∈ stages.map Stage.id := by
  unfold getStageForPosition at h
  by_cases he : stages = []
  · rw [if_pos (by simp [he, List.isEmpty_iff])] at h
    cases h
  · rw [if_neg (by simpa [List.isEmpty_iff] using he)] at h
    cases hf : stages.find?
        (fun stage => pos.ge (JSNum.num stage.start)
          && pos.lt (JSNum.num stage.stop)) with
    | some s =>
        rw [hf] at h
        have hs : s ∈ stages := List.mem_of_find?_eq_some hf
        have : s.id = id := Option.some.inj h
        exact this ▸ List.mem_map_of_mem Stage.id hs
    | none =>
        rw [hf, List.getLast?_eq_getLast_of_ne_nil he] at h
        rw [Option.map_some'] at h
        have : (stages.getLast he).id = id := Option.some.inj h
        exact this ▸ List.mem_map_of_mem Stage.id (List.getLast_mem he)

theorem find?_split {α : Type _} (p : α → Bool) (l : List α) (a : α)
    (h : l.find? p = some a) :
    ∃ l₁ l₂, l = l₁ ++ a :: l₂ ∧ (∀ x ∈ l₁, p x = false) := by
  induction l with
  | nil => simp at h
  | cons b t ih =>
      cases hb : p b with
      | true =>
          rw [List.find?_cons_of_pos t hb] at h
          obtain rfl : b = a := Option.some.inj h
          exact ⟨[], t, by simp, by simp⟩
      | false =>
          rw [List.find?_cons_of_neg t (by simp [hb])] at h
          obtain ⟨l₁, l₂, heq, hall⟩ := ih h
          refine ⟨b :: l₁, l₂, by simp [heq], ?_⟩
          intro x hx
          rcases List.mem_cons.mp hx with rfl | hx2
          · exact hb
          · exact hall x hx2

theorem foldMax_spec (l : List (String × Nat)) (acc : String × Nat) :
    (l.foldl (fun a p => if p.2 > a.2 then p else a) acc = acc
        ∧ ∀ p ∈ l, p.2 ≤ acc.2)
    ∨ (∃ l₁ r l₂, l = l₁ ++ r :: l₂
        ∧ l.foldl (fun a p => if p.2 > a.2 then p else a) acc = r
        ∧ acc.2 < r.2 ∧ (∀ p ∈ l₁, p.2 < r.2) ∧ (∀ p ∈ l₂, p.2 ≤ r.2)) := by
  induction l generalizing acc with
  | nil => left; exact ⟨rfl, by simp⟩
  | cons b t ih =>
      simp only [List.foldl_cons]
      by_cases hb : b.2 > acc.2
      · rw [if_pos hb]
        rcases ih b with ⟨heq, hle⟩ | ⟨l₁, r, l₂, ht, heq, hlt, hbef, haft⟩
        · right
          exact ⟨[], b, t, by simp, heq, hb, by simp, hle⟩
        · right
          refine ⟨b :: l₁, r, l₂, by simp [ht], heq, lt_trans hb hlt, ?_, haft⟩
          intro p hp
          rcases List.mem_cons.mp hp with rfl | hp2
          · exact hlt
          · exact hbef p hp2
      · rw [if_neg hb]
        push_neg at hb
        rcases ih acc with ⟨heq, hle⟩ | ⟨l₁, r, l₂, ht, heq, hlt, hbef, haft⟩
        · left
          refine ⟨heq, ?_⟩
          intro p hp
          rcases List.mem_cons.mp hp with rfl | hp2
          · exact hb
          · exact hle p hp2
        · right
          refine ⟨b :: l₁, r, l₂, by simp [ht], heq, hlt, ?_, haft⟩
          intro p hp
          rcases List.mem_cons.mp hp with rfl | hp2
          · exact lt_of_le_of_lt hb hlt
          · exact hbef p hp2

theorem lookup_ext (o₁ : List (String × Nat)) :
    ∀ o₂ : List (String × Nat), keys o₁ = keys o₂ → (keys o₁).Nodup →
      (∀ k, lookupCount o₁ k = lookupCount o₂ k) → o₁ = o₂ := by
  induction o₁ with
  | nil =>
      intro o₂ hk _ _
      cases o₂ with
      | nil => rfl
      | cons q t₂ => simp [keys] at hk
  | cons p t ih =>
      intro o₂ hk hnd h
      cases o₂ with
      | nil => simp [keys] at hk
      | cons q t₂ =>
          rw [keys_cons, keys_cons] at hk
          have hk1 : p.1 = q.1 := by
            have := congrArg (fun l => l.head?) hk
            simpa using this
          have hkt : keys t = keys t₂ := by
            have := congrArg (fun l => l.tail) hk
            simpa using this
          rw [keys_cons, List.nodup_cons] at hnd
          have hv : p.2 = q.2 := by
            have hh := h p.1
            unfold lookupCount at hh
            rw [List.find?_cons_of_pos _ (by simp),
              List.find?_cons_of_pos _ (by simp [hk1])] at hh
            simpa using hh
          have ht : t = t₂ := by
            apply ih t₂ hkt hnd.2
            intro k
            by_cases hkp : k = p.1
            · rw [(lookupCount_eq_none_iff t k).mpr (hkp.symm ▸ hnd.1),
                (lookupCount_eq_none_iff t₂ k).mpr (hkt ▸ hkp.symm ▸ hnd.1)]
            · have hh := h k
              unfold lookupCount at hh ⊢
              rw [List.find?_cons_of_neg _
                  (by simp [beq_iff_eq]; exact fun he => hkp he.symm),
                List.find?_cons_of_neg _
                  (by simp [beq_iff_eq]; rw [← hk1];
                      exact fun he => hkp he.symm)] at hh
              exact hh
          have hpq : p = q := Prod.ext_iff.mpr ⟨hk1, hv⟩
          rw [hpq, ht]

/-! ### Helper lemmas: per-belt counting and aggregation -/

theorem sumValues_eq_zero (o : List (String × Nat)) (h : ∀ p ∈ o, p.2 = 0) :
    sumValues o = 0 := by
  unfold sumValues
  apply List.sum_eq_zero
  intro x hx
  obtain ⟨p, hp, hpe⟩ := List.mem_map.mp hx
  exact hpe ▸ h p hp

theorem keys_foldl_countBag (stages : List Stage) (bags : List Bag) :
    ∀ acc : List (String × Nat),
      keys (bags.foldl (countBag stages) acc) = keys acc := by
  induction bags with
  | nil => intro acc; rfl
  | cons bag rest ih =>
      intro acc
      simp only [List.foldl_cons]
      rw [ih (countBag stages acc bag), keys_countBag]

theorem keys_calculateStageCounts (stages : List Stage) (belt : Option Belt) :
    keys (calculateStageCounts stages belt) = keys (zeroCounts stages) := by
  unfold calculateStageCounts
  cases belt with
  | none => rfl
  | some b =>
      obtain ⟨bob⟩ := b
      cases bob with
      | none => rfl
      | some bags => exact keys_foldl_countBag stages bags (zeroCounts stages)

theorem sumValues_foldl_countBag_eq (stages : List Stage)
    (hne : stages ≠ []) (hids : ∀ s ∈ stages, s.id ≠ "") (bags : List Bag) :
    ∀ acc : List (String × Nat), (keys acc).Nodup →
      (∀ k ∈ stages.map Stage.id, k ∈ keys acc) →
      sumValues (bags.foldl (countBag stages) acc)
        = sumValues acc + bags.length := by
  induction bags with
  | nil => intro acc _ _; simp
  | cons bag rest ih =>
      intro acc hnd hcov
      simp only [List.foldl_cons]
      obtain ⟨id, hid⟩ : ∃ id, getStageForPosition stages bag.position = some id := by
        cases hp : getStageForPosition stages bag.position with
        | none => exact absurd ((getStageForPosition_eq_none_iff stages bag.position).mp hp) hne
        | some id => exact ⟨id, rfl⟩
      have hmem : id ∈ stages.map Stage.id :=
        getStageForPosition_mem stages bag.position id hid
      have hne2 : id ≠ "" := by
        obtain ⟨s, hs, hse⟩ := List.mem_map.mp hmem
        exact hse ▸ hids s hs
      have hstep : countBag stages acc bag = bumpCount acc id 1 :=
        countBag_eq_bump stages acc bag id hid hne2 (hcov id hmem)
      rw [hstep, ih (bumpCount acc id 1)
          (by rw [keys_bumpCount]; exact hnd)
          (by rw [keys_bumpCount]; exact hcov),
        sumValues_bumpCount acc id 1 hnd (hcov id hmem)]
      simp
      omega

theorem sumValues_foldl_countBag_le (stages : List Stage) (bags : List Bag) :
    ∀ acc : List (String × Nat), (keys acc).Nodup →
      sumValues (bags.foldl (countBag stages) acc)
        ≤ sumValues acc + bags.length := by
  induction bags with
  | nil => intro acc _; simp
  | cons bag rest ih =>
      intro acc hnd
      simp only [List.foldl_cons]
      have h1 := sumValues_countBag_le stages acc bag hnd
      have h2 := ih (countBag stages acc bag)
        (by rw [keys_countBag]; exact hnd)
      simp only [List.length_cons]
      omega

theorem keys_foldl_addStageCount (counts : List (String × Nat))
    (ss : List Stage) :
    ∀ totals : List (String × Nat),
      keys (ss.foldl (addStageCount counts) totals) = keys totals := by
  induction ss with
  | nil => intro totals; rfl
  | cons s rest ih =>
      intro totals
      simp only [List.foldl_cons]
      rw [ih (addStageCount counts totals s)]
      unfold addStageCount
      exact keys_bumpCount totals s.id _

theorem keys_addBeltCounts (stages : List Stage)
    (totals : List (String × Nat)) (belt : Option Belt) :
    keys (addBeltCounts stages totals belt) = keys totals := by
  unfold addBeltCounts
  exact keys_foldl_addStageCount _ stages totals

theorem keys_foldl_addBeltCounts (stages : List Stage)
    (belts : List (Option Belt)) :
    ∀ totals : List (String × Nat),
      keys (belts.foldl (addBeltCounts stages) totals) = keys totals := by
  induction belts with
  | nil => intro totals; rfl
  | cons b rest ih =>
      intro totals
      simp only [List.foldl_cons]
      rw [ih (addBeltCounts stages totals b), keys_addBeltCounts]

theorem keys_aggregateStageCounts (stages : List Stage)
    (conveyorBelts : Option (List (Option Belt))) :
    keys (aggregateStageCounts stages conveyorBelts)
      = keys (zeroCounts stages) := by
  unfold aggregateStageCounts
  cases conveyorBelts with
  | none => rfl
  | some belts => exact keys_foldl_addBeltCounts stages belts (zeroCounts stages)

theorem lookup_foldl_addStageCount (counts : List (String × Nat))
    (ss : List Stage) (hnd : (ss.map Stage.id).Nodup) :
    ∀ (totals : List (String × Nat)) (k : String),
      lookupCount (ss.foldl (addStageCount counts) totals) k
        = if k ∈ ss.map Stage.id
          then (lookupCount totals k).map
            (· + (lookupCount counts k).getD 0)
          else lookupCount totals k := by
  induction ss with
  | nil =>
      intro totals k
      rw [if_neg (by simp)]
      rfl
  | cons s rest ih =>
      intro totals k
      simp only [List.map_cons, List.nodup_cons] at hnd
      simp only [List.foldl_cons]
      rw [ih hnd.2 (addStageCount counts totals s) k]
      have hbump : lookupCount (addStageCount counts totals s) k
          = if k = s.id
            then (lookupCount totals k).map
              (· + (lookupCount counts s.id).getD 0)
            else lookupCount totals k := by
        unfold addStageCount
        exact lookupCount_bumpCount totals s.id k _
      by_cases hk : k = s.id
      · rw [if_neg (by rw [hk]; exact hnd.1), hbump, if_pos hk,
          if_pos (by rw [List.map_cons]; exact List.mem_cons.mpr (Or.inl hk)),
          hk]
      · by_cases hk2 : k ∈ rest.map Stage.id
        · rw [if_pos hk2, hbump, if_neg hk,
            if_pos (by rw [List.map_cons]; exact List.mem_cons.mpr (Or.inr hk2))]
        · rw [if_neg hk2, hbump, if_neg hk,
            if_neg (by
              rw [List.map_cons]
              intro hc
              rcases List.mem_cons.mp hc with he | h2
              · exact hk he
              · exact hk2 h2)]

theorem lookup_foldl_addBeltCounts (stages : List Stage)
    (hnd : (stages.map Stage.id).Nodup) (belts : List (Option Belt)) :
    ∀ (totals : List (String × Nat)) (k : String), k ∈ stages.map Stage.id →
      lookupCount (belts.foldl (addBeltCounts stages) totals) k
        = (lookupCount totals k).map
            (· + (belts.map (fun b =>
              (lookupCount (calculateStageCounts stages b) k).getD 0)).sum) := by
  induction belts with
  | nil =>
      intro totals k _
      cases h : lookupCount totals k <;> simp [h]
  | cons b rest ih =>
      intro totals k hk
      simp only [List.foldl_cons]
      rw [ih (addBeltCounts stages totals b) k hk]
      have hb : lookupCount (addBeltCounts stages totals b) k
          = (lookupCount totals k).map
              (· + (lookupCount (calculateStageCounts stages b) k).getD 0) := by
        unfold addBeltCounts
        rw [lookup_foldl_addStageCount (calculateStageCounts stages b)
          stages hnd totals k, if_pos hk]
      rw [hb]
      cases h : lookupCount totals k with
      | none => simp
      | some v =>
          simp only [Option.map_some', List.map_cons, List.sum_cons,
            Option.some.injEq]
          omega

theorem lookupCount_mapValues (o : List (String × Nat)) (f : String → Nat)
    (k : String) :
    lookupCount (o.map (fun p => (p.1, f p.1))) k
      = (lookupCount o k).map (fun _ => f k) := by
  induction o with
  | nil => rfl
  | cons p t ih =>
      simp only [List.map_cons]
      by_cases hp : p.1 = k
      · unfold lookupCount
        rw [List.find?_cons_of_pos _ (by simp [hp]),
          List.find?_cons_of_pos _ (by simp [hp])]
        simp [hp]
      · unfold lookupCount at ih ⊢
        rw [List.find?_cons_of_neg _ (by simp [beq_iff_eq, hp]),
          List.find?_cons_of_neg _ (by simp [beq_iff_eq, hp])]
        exact ih

theorem keys_mapValues (o : List (String × Nat)) (f : String → Nat) :
    keys (o.map (fun p => (p.1, f p.1))) = keys o := by
  unfold keys
  rw [List.map_map]
  rfl

/-! ### Claim theorems -/

/-- Claim C3, counterexample: with the canonical 4-stage table,
`getStageForPosition(-5)` is NOT the first stage `checking` — the permissive
fallback picks the last stage, so the claim as stated is false. -/
theorem getStageForPosition_neg_counterexample :
    getStageForPosition beltStages (JSNum.num (-5)) ≠ some "checking" := by
  decide

/-- Claim C3, amended: with the canonical 4-stage table,
`getStageForPosition(-5)` returns `boarding`, the LAST stage — the fallback
`stages[stages.length - 1]` applies to every unmatched position, negative
positions included. -/
theorem getStageForPosition_neg_fallback :
    getStageForPosition beltStages (JSNum.num (-5)) = some "boarding" := by
  decide

/-- Claim C7: `getStageFlowState` is the ordered decision table evaluated
top-to-bottom, first match wins: result is `Idle` exactly when the count is 0;
otherwise `Congested` when `loadPercent >= 60`, `Flowing` when
`30 <= loadPercent < 60`, and `Clearing` when `loadPercent < 30`; the four
spec examples evaluate as stated.  Determinism (same inputs, same output) is
by construction: the embedding is a pure function of its two arguments. -/
theorem getStageFlowState_spec (loadPercent : ℤ) (count : Nat) :
    (getStageFlowState loadPercent count = "Idle" ↔ count = 0)
    ∧ (count ≠ 0 → 60 ≤ loadPercent →
        getStageFlowState loadPercent count = "Congested")
    ∧ (count ≠ 0 → 30 ≤ loadPercent → loadPercent < 60 →
        getStageFlowState loadPercent count = "Flowing")
    ∧ (count ≠ 0 → loadPercent < 30 →
        getStageFlowState loadPercent count = "Clearing")
    ∧ getStageFlowState 0 0 = "Idle"
    ∧ getStageFlowState 65 5 = "Congested"
    ∧ getStageFlowState 45 5 = "Flowing"
    ∧ getStageFlowState 10 5 = "Clearing" := by
  refine ⟨⟨?_, ?_⟩, ?_, ?_, ?_, by decide, by decide, by decide, by decide⟩
  · intro h
    by_contra hc
    unfold getStageFlowState at h
    rw [if_neg hc] at h
    split_ifs at h <;> exact absurd h (by decide)
  · intro h
    unfold getStageFlowState
    rw [if_pos h]
  · intro hc h60
    unfold getStageFlowState
    rw [if_neg hc, if_pos h60]
  · intro hc h30 h60
    unfold getStageFlowState
    rw [if_neg hc, if_neg (not_le.mpr h60), if_pos h30]
  · intro hc h30
    unfold getStageFlowState
    rw [if_neg hc, if_neg (not_le.mpr (lt_trans h30 (by norm_num))),
      if_neg (not_le.mpr h30)]

/-- Claim C7 witness: the theorem applied at `loadPercent = 65`, `count = 5`. -/
theorem getStageFlowState_spec_witness :
    getStageFlowState 65 5 = "Congested" :=
  (getStageFlowState_spec 65 5).2.1 (by decide) (by decide)

/-- Claim C8: an alert passes the scope filter exactly when its `scope` field
is absent/not-a-list (`none`), or an empty list, or some element of it is the
string `all` or a member of the viewer's allowed-scope set. -/
theorem filterAlertsByScope_spec (alertScopes : List String)
    (alerts : List Alert) (a : Alert) :
    a ∈ filterAlertsByScope alertScopes (some alerts)
      ↔ a ∈ alerts
        ∧ (a.scope = none ∨ a.scope = some []
            ∨ ∃ l, a.scope = some l ∧ ∃ s ∈ l, s = "all" ∨ s ∈ alertScopes) := by
  unfold filterAlertsByScope
  show a ∈ (if alerts.isEmpty = true then ([] : List Alert)
    else List.filter _ alerts) ↔ _
  by_cases he : alerts.isEmpty
  · rw [if_pos he]
    have hnil : alerts = [] := List.isEmpty_iff.mp he
    subst hnil
    simp
  · rw [if_neg he, List.mem_filter]
    apply and_congr_right
    intro _
    show (match a.scope with
      | none => true
      | some scope =>
          if scope.isEmpty then true
          else scope.any (fun s => alertScopes.contains s || s == "all")) = true
      ↔ _
    cases hs : a.scope with
    | none => simp
    | some l =>
        cases l with
        | nil => simp
        | cons x xs =>
            show (if (x :: xs).isEmpty = true then true
              else (x :: xs).any fun s => alertScopes.contains s || s == "all")
                = true ↔ _
            rw [if_neg (by simp)]
            constructor
            · intro hany
              obtain ⟨s, hsm, hse⟩ := List.any_eq_true.mp hany
              rw [Bool.or_eq_true] at hse
              refine Or.inr (Or.inr ⟨x :: xs, rfl, s, hsm, ?_⟩)
              rcases hse with hc | hall
              · exact Or.inr (List.elem_iff.mp hc)
              · exact Or.inl (of_decide_eq_true hall)
            · intro hdisj
              rcases hdisj with hnone | hsome | ⟨l, hl, s, hsm, hdis⟩
              · exact absurd hnone (by simp)
              · exact absurd hsome (by simp)
              · obtain rfl : l = x :: xs := (Option.some.inj hl).symm
                apply List.any_eq_true.mpr
                refine ⟨s, hsm, ?_⟩
                rw [Bool.or_eq_true]
                rcases hdis with hall | hmem
                · exact Or.inr (by simp [hall])
                · exact Or.inl (List.elem_iff.mpr hmem)

/-- Claim C9, counterexample: an alert scoped `["terminalA"]` is NOT kept for
a viewer whose allowed-scope set is `["all"]` — the code's `"all"` wildcard is
matched against the alert's scope elements, not against the viewer's set. -/
theorem filterAlertsByScope_all_viewer_counterexample :
    filterAlertsByScope ["all"]
      (some [{ id := "a1", scope := some ["terminalA"] }]) = [] := by
  decide

/-- Claim C9, amended: an alert scoped `["terminalA"]` is kept for a viewer
allowed `["terminalA"]`, and discarded both for a viewer allowed `["all"]`
(the wildcard applies to alert scopes, not viewer scopes) and for one allowed
`["terminalB"]`; an alert with no scope field is kept for every viewer. -/
theorem filterAlertsByScope_examples :
    filterAlertsByScope ["terminalA"]
        (some [{ id := "a1", scope := some ["terminalA"] }])
      = [{ id := "a1", scope := some ["terminalA"] }]
    ∧ filterAlertsByScope ["terminalB"]
        (some [{ id := "a1", scope := some ["terminalA"] }]) = []
    ∧ filterAlertsByScope ["all"]
        (some [{ id := "a1", scope := some ["terminalA"] }]) = []
    ∧ ∀ alertScopes : List String,
        filterAlertsByScope alertScopes
          (some [{ id := "a2", scope := none }])
        = [{ id := "a2", scope := none }] := by
  refine ⟨by decide, by decide, by decide, ?_⟩
  intro alertScopes
  rfl

/-- Claim C1: `getStageForPosition` returns `null` iff the stage table is
empty; when some stage satisfies `start <= position < end` (in JS comparison
semantics) the FIRST such stage's id is returned; when no stage matches
(negative, `>= 100`, or NaN positions) the LAST stage's id is returned.  With
the canonical table every rational position in `[0,100]` yields a defined
stage id, and position 100 yields `boarding` via the fallback. -/
theorem getStageForPosition_spec (stages : List Stage) (pos : JSNum) :
    (getStageForPosition stages pos = none ↔ stages = [])
    ∧ ((∃ s ∈ stages,
          (pos.ge (JSNum.num s.start) && pos.lt (JSNum.num s.stop)) = true) →
        ∃ l₁ s0 l₂, stages = l₁ ++ s0 :: l₂
          ∧ (pos.ge (JSNum.num s0.start) && pos.lt (JSNum.num s0.stop)) = true
          ∧ (∀ u ∈ l₁,
              (pos.ge (JSNum.num u.start) && pos.lt (JSNum.num u.stop)) = false)
          ∧ getStageForPosition stages pos = some s0.id)
    ∧ ((∀ s ∈ stages,
          ¬ ((pos.ge (JSNum.num s.start) && pos.lt (JSNum.num s.stop)) = true)) →
        ∀ h : stages ≠ [],
          getStageForPosition stages pos = some ((stages.getLast h).id))
    ∧ (∀ q : ℚ, 0 ≤ q → q ≤ 100 →
        ∃ s ∈ beltStages,
          getStageForPosition beltStages (JSNum.num q) = some s.id)
    ∧ getStageForPosition beltStages (JSNum.num 100) = some "boarding" := by
  refine ⟨getStageForPosition_eq_none_iff stages pos, ?_, ?_, ?_, by decide⟩
  · rintro ⟨s, hs, hpred⟩
    have hne : stages ≠ [] := List.ne_nil_of_mem hs
    cases hf : stages.find?
        (fun stage => pos.ge (JSNum.num stage.start)
          && pos.lt (JSNum.num stage.stop)) with
    | none =>
        have := List.find?_eq_none.mp hf s hs
        exact absurd hpred this
    | some s0 =>
        obtain ⟨l₁, l₂, heq, hall⟩ := find?_split _ stages s0 hf
        have hpred0 := List.find?_some hf
        refine ⟨l₁, s0, l₂, heq, hpred0, hall, ?_⟩
        unfold getStageForPosition
        rw [if_neg (by simpa [List.isEmpty_iff] using hne), hf]
  · intro hnone h
    unfold getStageForPosition
    rw [if_neg (by simpa [List.isEmpty_iff] using h)]
    have hfind : stages.find?
        (fun stage => pos.ge (JSNum.num stage.start)
          && pos.lt (JSNum.num stage.stop)) = none :=
      List.find?_eq_none.mpr hnone
    rw [hfind, List.getLast?_eq_getLast_of_ne_nil h, Option.map_some']
  · intro q _ _
    cases hres : getStageForPosition beltStages (JSNum.num q) with
    | none =>
        have := (getStageForPosition_eq_none_iff beltStages
          (JSNum.num q)).mp hres
        exact absurd this (by decide)
    | some id =>
        obtain ⟨s, hsm, hse⟩ := List.mem_map.mp
          (getStageForPosition_mem beltStages (JSNum.num q) id hres)
        exact ⟨s, hsm, by rw [hse]⟩

/-- Claim C1 witness: the theorem applied at position 30 (first-match clause)
and at position 50 (coverage clause), both with the canonical table. -/
theorem getStageForPosition_spec_witness :
    (∃ l₁ s0 l₂, beltStages = l₁ ++ s0 :: l₂
      ∧ ((JSNum.num 30).ge (JSNum.num s0.start)
          && (JSNum.num 30).lt (JSNum.num s0.stop)) = true
      ∧ (∀ u ∈ l₁, ((JSNum.num 30).ge (JSNum.num u.start)
          && (JSNum.num 30).lt (JSNum.num u.stop)) = false)
      ∧ getStageForPosition beltStages (JSNum.num 30) = some s0.id)
    ∧ (∃ s ∈ beltStages,
        getStageForPosition beltStages (JSNum.num 50) = some s.id) :=
  ⟨(getStageForPosition_spec beltStages (JSNum.num 30)).2.1 (by decide),
   (getStageForPosition_spec beltStages (JSNum.num 50)).2.2.2.1 50
     (by norm_num) (by norm_num)⟩

/-- Claim C5: `getDominantStage` returns `null` iff the mapping is empty; on a
non-empty mapping it returns the key of the first entry (in the mapping's own
insertion/iteration order) holding the maximum value — every value is `<=` the
returned entry's value and every strictly earlier entry is strictly below it,
because the running-maximum comparison is strict `>`.  On the spec's example
`{checking:3, sorting:3, security:1, boarding:0}` it returns `checking`. -/
theorem getDominantStage_spec (counts : List (String × Nat)) :
    (getDominantStage counts = none ↔ counts = [])
    ∧ (counts ≠ [] →
        ∃ l₁ k v l₂, counts = l₁ ++ (k, v) :: l₂
          ∧ getDominantStage counts = some k
          ∧ (∀ p ∈ counts, p.2 ≤ v)
          ∧ (∀ p ∈ l₁, p.2 < v))
    ∧ getDominantStage
        [("checking", 3), ("sorting", 3), ("security", 1), ("boarding", 0)]
      = some "checking" := by
  refine ⟨?_, ?_, by decide⟩
  · cases counts with
    | nil => simp [getDominantStage]
    | cons first rest => simp [getDominantStage]
  · intro h
    cases counts with
    | nil => exact absurd rfl h
    | cons first rest =>
        have hrfl : getDominantStage (first :: rest)
            = some ((List.foldl (fun acc p => if p.2 > acc.2 then p else acc)
                first (first :: rest)).1) := rfl
        rcases foldMax_spec (first :: rest) first with
          ⟨heq, hle⟩ | ⟨l₁, r, l₂, heql, heq, _, hbef, haft⟩
        · refine ⟨[], first.1, first.2, rest, by simp, ?_, ?_, by simp⟩
          · rw [hrfl, heq]
          · intro p hp
            exact hle p hp
        · refine ⟨l₁, r.1, r.2, l₂, by simpa using heql, ?_, ?_, hbef⟩
          · rw [hrfl, heq]
          · intro p hp
            rw [heql] at hp
            rcases List.mem_append.mp hp with h1 | h2
            · exact le_of_lt (hbef p h1)
            · rcases List.mem_cons.mp h2 with rfl | h3
              · exact le_refl _
              · exact haft p h3

/-- Claim C5 witness: the theorem applied to the spec's tie-break example. -/
theorem getDominantStage_spec_witness :
    ∃ l₁ k v l₂,
      ([("checking", 3), ("sorting", 3), ("security", 1), ("boarding", 0)]
          : List (String × Nat)) = l₁ ++ (k, v) :: l₂
      ∧ getDominantStage
          [("checking", 3), ("sorting", 3), ("security", 1), ("boarding", 0)]
        = some k
      ∧ (∀ p ∈ ([("checking", 3), ("sorting", 3), ("security", 1),
          ("boarding", 0)] : List (String × Nat)), p.2 ≤ v)
      ∧ (∀ p ∈ l₁, p.2 < v) :=
  (getDominantStage_spec
    [("checking", 3), ("sorting", 3), ("security", 1), ("boarding", 0)]).2.1
    (by decide)

/-- Claim C10: on any non-empty all-zero counts mapping the strict-`>` running
maximum never moves off the first entry, so `getDominantStage` returns the
first key and never `null`; for the canonical table's counts of an empty belt
that key is `checking` (which is what the timeline renderer then highlights
as `active`); more generally the dominant stage of any belt's counts under
the canonical table is never `null`. -/
theorem getDominantStage_allZero (counts : List (String × Nat))
    (hne : counts ≠ []) (hz : ∀ p ∈ counts, p.2 = 0) :
    getDominantStage counts = some ((counts.head hne).1)
    ∧ getDominantStage
        (calculateStageCounts beltStages (some { bags_on_belt := some [] }))
      = some "checking"
    ∧ (∀ belt : Option Belt,
        getDominantStage (calculateStageCounts beltStages belt) ≠ none) := by
  refine ⟨?_, by decide, ?_⟩
  · cases counts with
    | nil => exact absurd rfl hne
    | cons first rest =>
        have hrfl : getDominantStage (first :: rest)
            = some ((List.foldl (fun acc p => if p.2 > acc.2 then p else acc)
                first (first :: rest)).1) := rfl
        rcases foldMax_spec (first :: rest) first with
          ⟨heq, _⟩ | ⟨l₁, r, l₂, heql, _, hlt, _, _⟩
        · rw [hrfl, heq]
          rfl
        · have hr : r ∈ first :: rest := by
            rw [heql]
            exact List.mem_append_right _ (List.mem_cons_self _ _)
          have h1 := hz first (List.mem_cons_self _ _)
          have h2 := hz r hr
          omega
  · intro belt hc
    cases hcc : calculateStageCounts beltStages belt with
    | cons first rest =>
        rw [hcc] at hc
        simp [getDominantStage] at hc
    | nil =>
        have hkeys := keys_calculateStageCounts beltStages belt
        rw [hcc] at hkeys
        exact absurd hkeys.symm (by decide)

/-- Claim C10 witness: the theorem applied to the canonical all-zero counts. -/
theorem getDominantStage_allZero_witness :
    getDominantStage (zeroCounts beltStages)
      = some (((zeroCounts beltStages).head (by decide)).1) :=
  (getDominantStage_allZero (zeroCounts beltStages) (by decide)
    (by decide)).1

/-- Claim C2: with the canonical 4-stage table, the values of
`calculateStageCounts` on a belt with `N` bags of numeric position sum to
exactly `N` (every bag is classified by the fallback into exactly one stage
whose key exists in the zero-initialized mapping); in general — any stage
table, any bag list — the sum never exceeds the number of bags, since each
bag increments at most one counter by at most 1. -/
theorem calculateStageCounts_conservation (bags bags2 : List Bag)
    (stages2 : List Stage)
    (_hnum : ∀ bag ∈ bags, ∃ q : ℚ, bag.position = JSNum.num q) :
    sumValues (calculateStageCounts beltStages
        (some { bags_on_belt := some bags })) = bags.length
    ∧ sumValues (calculateStageCounts stages2
        (some { bags_on_belt := some bags2 })) ≤ bags2.length := by
  constructor
  · show sumValues (bags.foldl (countBag beltStages) (zeroCounts beltStages))
      = bags.length
    rw [sumValues_foldl_countBag_eq beltStages (by decide) (by decide) bags
        (zeroCounts beltStages) (keys_zeroCounts_nodup beltStages)
        (fun k hk => (keys_zeroCounts_mem beltStages k).mpr hk),
      sumValues_eq_zero _ (zeroCounts_values beltStages)]
    omega
  · show sumValues (bags2.foldl (countBag stages2) (zeroCounts stages2))
      ≤ bags2.length
    have hle := sumValues_foldl_countBag_le stages2 bags2 (zeroCounts stages2)
      (keys_zeroCounts_nodup stages2)
    rw [sumValues_eq_zero _ (zeroCounts_values stages2)] at hle
    simpa using hle

/-- Claim C2 witness: the theorem applied to a two-bag belt (one in-range bag,
one out-of-range bag absorbed by the fallback). -/
theorem calculateStageCounts_conservation_witness :
    sumValues (calculateStageCounts beltStages (some { bags_on_belt := some [{ bag_id := "b1", position := JSNum.num 10 }, { bag_id := "b2", position := JSNum.num 110 }] })) = 2 :=
  (calculateStageCounts_conservation
    [{ bag_id := "b1", position := JSNum.num 10 },
     { bag_id := "b2", position := JSNum.num 110 }] [] []
    (by
      intro bag hb
      rcases List.mem_cons.mp hb with rfl | hb2
      · exact ⟨10, rfl⟩
      · rcases List.mem_cons.mp hb2 with rfl | hb3
        · exact ⟨110, rfl⟩
        · simp at hb3)).1

/-- Claim C6: for every input shape — absent belt, belt without a bag list,
arbitrary bag positions, non-list belt collection — `calculateStageCounts`
and `aggregateStageCounts` total functions returning a mapping with exactly
the zero-initialization's keys (one non-negative `Nat` entry per distinct
stage id, in stage order when ids are distinct), and the absent/empty cases
return the all-zero mapping itself.  "Never throws" holds by construction:
both embeddings are total Lean functions on these input types. -/
theorem stageCounts_structure (stages : List Stage) (belt : Option Belt)
    (conveyorBelts : Option (List (Option Belt))) :
    keys (calculateStageCounts stages belt) = keys (zeroCounts stages)
    ∧ keys (aggregateStageCounts stages conveyorBelts)
        = keys (zeroCounts stages)
    ∧ (∀ k, k ∈ keys (zeroCounts stages) ↔ k ∈ stages.map Stage.id)
    ∧ ((stages.map Stage.id).Nodup →
        keys (zeroCounts stages) = stages.map Stage.id)
    ∧ calculateStageCounts stages none = zeroCounts stages
    ∧ calculateStageCounts stages (some { bags_on_belt := none })
        = zeroCounts stages
    ∧ calculateStageCounts stages (some { bags_on_belt := some [] })
        = zeroCounts stages
    ∧ (∀ p ∈ zeroCounts stages, p.2 = 0) :=
  ⟨keys_calculateStageCounts stages belt,
   keys_aggregateStageCounts stages conveyorBelts,
   fun k => keys_zeroCounts_mem stages k,
   keys_zeroCounts_of_nodup stages,
   rfl, rfl, rfl,
   zeroCounts_values stages⟩

/-- Claim C6 witness: the theorem applied to the canonical table, recovering
the exact ordered key set of every produced mapping. -/
theorem stageCounts_structure_witness :
    keys (zeroCounts beltStages) = beltStages.map Stage.id :=
  (stageCounts_structure beltStages none none).2.2.2.1 (by decide)

/-- Claim C4: for distinct stage ids (true of the canonical table), the
aggregate over any belt list equals, entry by entry over the zero-initialized
key set, the sum of the per-belt `calculateStageCounts` values; in particular
`aggregateStageCounts [A, B]` is the element-wise sum of the two belts'
counts, and a malformed/absent belt (`none`) contributes zero to every stage
while the remaining belts are still aggregated. -/
theorem aggregateStageCounts_additive (stages : List Stage)
    (A B : Option Belt) (belts : List (Option Belt))
    (hnd : (stages.map Stage.id).Nodup) :
    aggregateStageCounts stages (some belts)
      = (zeroCounts stages).map (fun p => (p.1,
          (belts.map (fun b =>
            (lookupCount (calculateStageCounts stages b) p.1).getD 0)).sum))
    ∧ aggregateStageCounts stages (some [A, B])
      = (zeroCounts stages).map (fun p => (p.1,
          (lookupCount (calculateStageCounts stages A) p.1).getD 0
          + (lookupCount (calculateStageCounts stages B) p.1).getD 0))
    ∧ aggregateStageCounts stages (some (none :: belts))
      = aggregateStageCounts stages (some belts) := by
  have key : ∀ bs : List (Option Belt),
      aggregateStageCounts stages (some bs)
        = (zeroCounts stages).map (fun p => (p.1,
            (bs.map (fun b =>
              (lookupCount (calculateStageCounts stages b) p.1).getD 0)).sum)) := by
    intro bs
    have hagg : aggregateStageCounts stages (some bs)
        = bs.foldl (addBeltCounts stages) (zeroCounts stages) := rfl
    apply lookup_ext
    · rw [keys_aggregateStageCounts stages (some bs)]
      exact Eq.symm (keys_mapValues (zeroCounts stages)
        (fun kk => (bs.map (fun b =>
          (lookupCount (calculateStageCounts stages b) kk).getD 0)).sum))
    · rw [keys_aggregateStageCounts stages (some bs)]
      exact keys_zeroCounts_nodup stages
    · intro k
      rw [hagg]
      have hR := lookupCount_mapValues (zeroCounts stages)
        (fun kk => (bs.map (fun b =>
          (lookupCount (calculateStageCounts stages b) kk).getD 0)).sum) k
      by_cases hk : k ∈ stages.map Stage.id
      · rw [lookup_foldl_addBeltCounts stages hnd bs (zeroCounts stages) k hk]
        refine Eq.trans ?_ hR.symm
        rcases lookupCount_zeroCounts stages k with h0 | h0
        · rw [h0]
          simp
        · exact absurd ((keys_zeroCounts_mem stages k).mpr hk)
            ((lookupCount_eq_none_iff _ k).mp h0)
      · have h1 : lookupCount (zeroCounts stages) k = none :=
          (lookupCount_eq_none_iff _ k).mpr
            (fun hc => hk ((keys_zeroCounts_mem stages k).mp hc))
        have h2 : lookupCount
            (bs.foldl (addBeltCounts stages) (zeroCounts stages)) k = none := by
          rw [lookupCount_eq_none_iff, keys_foldl_addBeltCounts]
          exact fun hc => hk ((keys_zeroCounts_mem stages k).mp hc)
        rw [h2]
        refine Eq.symm (hR.trans ?_)
        rw [h1]
        rfl
  refine ⟨key belts, ?_, ?_⟩
  · rw [key [A, B]]
    apply List.map_congr_left
    intro p _
    simp
  · rw [key (none :: belts), key belts]
    apply List.map_congr_left
    intro p _
    have hz : (lookupCount (calculateStageCounts stages none) p.1).getD 0
        = 0 := by
      show (lookupCount (zeroCounts stages) p.1).getD 0 = 0
      rcases lookupCount_zeroCounts stages p.1 with h | h <;> rw [h] <;> rfl
    simp [hz]

/-- Claim C4 witness: the theorem applied with the canonical table to a
one-bag belt `A` and an absent belt `B`, yielding the element-wise sum. -/
theorem aggregateStageCounts_additive_witness :
    aggregateStageCounts beltStages
      (some [some { bags_on_belt := some [{ bag_id := "b1", position := JSNum.num 10 }] }, none])
      = (zeroCounts beltStages).map (fun p => (p.1,
          (lookupCount (calculateStageCounts beltStages
            (some { bags_on_belt := some [{ bag_id := "b1", position := JSNum.num 10 }] })) p.1).getD 0
          + (lookupCount (calculateStageCounts beltStages none) p.1).getD 0)) :=
  (aggregateStageCounts_additive beltStages
    (some { bags_on_belt := some [{ bag_id := "b1", position := JSNum.num 10 }] })
    none [] (by decide)).2.1
